import Mathlib

/-!
Verification of the `pipelined/mixer` frame-synchronization engine
(mutex-based revision of `mixer.go`).

Sample buffers (`signal.Float64`, a `[][]float64`: channels × samples) are
modelled as `List (List ℚ)`; samples are exact rationals, matching the
decimal constants used throughout the code's tests.  A frame's `next`
pointer chain is modelled as a `List Frame` in which index `k + 1` is the
successor of index `k`; the Go code only ever appends a successor to the
final frame of the chain, so the list representation is exact.  The
unbuffered `output` channel is modelled as the list of frames sent on it,
in send order, each entry recording the chain index of the sent frame and
a snapshot of the frame value at send time.  The `done` channel is a
Boolean that is set when `close(m.done)` runs.
-/

namespace MixM

/-- One sample, `float64` in Go, modelled as an exact rational. -/
abbrev Sample := ℚ

/-- `signal.Float64`: channels × samples. -/
abbrev Buf := List (List Sample)

/-- `signal.Float64.NumChannels()`: the number of channels. -/
def Buf.numChannels (b : Buf) : ℕ := b.length

/-- `signal.Float64.Size()`: the length of the first channel (0 if none). -/
def Buf.size (b : Buf) : ℕ := (b.headD []).length

/-- Indexed read `b[i][j]`, defaulting to `0` out of range. -/
def Buf.sample (b : Buf) (i j : ℕ) : Sample := (b.getD i []).getD j 0

/-- A well-formed `signal.Float64` buffer: all channels share one length. -/
def Buf.uniform (b : Buf) : Prop := ∀ ch ∈ b, ch.length = Buf.size b

instance (b : Buf) : Decidable (Buf.uniform b) := by
  unfold Buf.uniform; infer_instance

/-- `frame`: one pending aggregation window (`buffer`, `summed`, `expected`;
the `next` pointer is the list structure of `MixState.chain`). -/
structure Frame where
  buffer : Buf
  summed : ℕ
  expected : ℤ
deriving Repr, DecidableEq

/-- `newFrame(numInputs, numChannels)`. -/
def newFrame (numInputs : ℤ) (numChannels : ℕ) : Frame :=
  { buffer := List.replicate numChannels [], summed := 0, expected := numInputs }

/-- `frame.isComplete()`: `expected > 0 && expected == summed`. -/
def Frame.isComplete (f : Frame) : Bool :=
  decide (0 < f.expected ∧ f.expected = (f.summed : ℤ))

/-- `frame.add(b)`: extend the frame buffer (zero-filled) when the incoming
buffer is longer, sum elementwise over the incoming buffer's channels and
positions, then increment `summed`. -/
def Frame.add (f : Frame) (b : Buf) : Frame :=
  let diff : ℤ := (Buf.size b : ℤ) - (Buf.size f.buffer : ℤ)
  let ext : Buf :=
    if 0 < diff then f.buffer.map (fun ch => ch ++ List.replicate diff.toNat 0)
    else f.buffer
  let mixed : Buf := ext.mapIdx (fun i ch =>
    if i < Buf.numChannels b then
      ch.mapIdx (fun j v => if j < Buf.size b then v + Buf.sample b i j else v)
    else ch)
  { buffer := mixed, summed := f.summed + 1, expected := f.expected }

/-- `frame.copySum(b)`: shrink the destination's channels to the frame
buffer's size when the destination is longer, then write the normalized
sums `f.buffer[i][j] / summed` into the destination. -/
def Frame.copySum (f : Frame) (b : Buf) : Buf :=
  let b1 : Buf :=
    if Buf.size f.buffer < Buf.size b then
      b.mapIdx (fun i ch =>
        if i < Buf.numChannels f.buffer then ch.take (Buf.size f.buffer) else ch)
    else b
  b1.mapIdx (fun i ch =>
    ch.mapIdx (fun j v =>
      if j < Buf.size b1 then Buf.sample f.buffer i j / (f.summed : ℚ) else v))

/-- `input`: a registered producer slot.  `pos` is the chain index of the
slot's current frame; after a flush it stays frozen at the index where the
flush walk started (the Go code sets the pointer to `nil`, and a flushed
slot performs no further operation, so the frozen index is unobservable
bookkeeping).  `channels` is the slot's declared channel count. -/
structure InputState where
  pos : ℕ
  flushed : Bool
  channels : ℕ
deriving Repr, DecidableEq

/-- `Mixer`: chain of frames, registered inputs, frames sent on `output`
(index and snapshot at send time), `activeInputs`, and the `done` flag. -/
structure MixState where
  numChannels : ℕ
  sampleRate : ℕ
  chain : List Frame
  inputs : List InputState
  output : List (ℕ × Frame)
  activeInputs : ℤ
  doneClosed : Bool
deriving Repr, DecidableEq

/-- `New(numChannels)`. -/
def newMixer (nc : ℕ) : MixState :=
  { numChannels := nc, sampleRate := 0, chain := [newFrame 0 nc], inputs := [],
    output := [], activeInputs := 0, doneClosed := false }

/-- The registration part of `Mixer.Sink`: store the declared rate, bump
`firstFrame.expected`, append the input, bump `activeInputs`; always
returns a `nil` error (the code performs no validation). -/
def sinkReg (m : MixState) (srate : ℕ) (nc : ℕ) : MixState × Option String :=
  ({ m with
      sampleRate := srate,
      chain := match m.chain with
               | f :: rest => { f with expected := f.expected + 1 } :: rest
               | [] => [],
      inputs := m.inputs ++ [{ pos := 0, flushed := false, channels := nc }],
      activeInputs := m.activeInputs + 1 }, none)

/-- The write closure returned by `Mixer.Sink` for slot `i`: `add` the
buffer into the slot's current frame, create the successor (with the
current frame's `expected`) when absent, send the frame if now complete,
advance the slot.  Every return path of the Go closure is `return nil`. -/
def writeFn (m : MixState) (i : ℕ) (b : Buf) : MixState × Option String :=
  match m.inputs[i]? with
  | none => (m, none)
  | some inp =>
    match m.chain[inp.pos]? with
    | none => (m, none)
    | some f =>
      let f' := f.add b
      let chain1 := m.chain.set inp.pos f'
      let chain2 :=
        if inp.pos + 1 < m.chain.length then chain1
        else chain1 ++ [newFrame f'.expected m.numChannels]
      ({ m with
          chain := chain2,
          output := if f'.isComplete then m.output ++ [(inp.pos, f')] else m.output,
          inputs := m.inputs.set i { inp with pos := inp.pos + 1 } }, none)

/-- One flush walk step on a frame: `f.expected--`. -/
def decExp (f : Frame) : Frame := { f with expected := f.expected - 1 }

/-- The loop body of `Mixer.Flush` for a sink: walk the remaining chain,
decrement each frame's `expected`, and send each frame that becomes
complete, in walk order. -/
def flushWalk : List Frame → ℕ → List Frame × List (ℕ × Frame)
  | [], _ => ([], [])
  | f :: rest, k =>
    let f' : Frame := decExp f
    let r := flushWalk rest (k + 1)
    (f' :: r.1, (if f'.isComplete then [(k, f')] else []) ++ r.2)

/-- `Mixer.Flush(sinkID)` for slot `i`: walk and decrement the slot's
remaining chain, mark the slot flushed, decrement `activeInputs`, and
close `done` when no active input remains. -/
def flushFn (m : MixState) (i : ℕ) : MixState × Option String :=
  match m.inputs[i]? with
  | none => (m, none)
  | some inp =>
    let w := flushWalk (m.chain.drop inp.pos) inp.pos
    let active := m.activeInputs - 1
    ({ m with
        chain := m.chain.take inp.pos ++ w.1,
        output := m.output ++ w.2,
        inputs := m.inputs.set i { inp with flushed := true },
        activeInputs := active,
        doneClosed := m.doneClosed || decide (active = 0) }, none)

/-- A producer-side event: a `Sink` write or a sink `Flush`. -/
inductive Event where
  | write (i : ℕ) (b : Buf)
  | flush (i : ℕ)
deriving Repr, DecidableEq

/-- Apply one event to the mixer state. -/
def stepEvent (m : MixState) : Event → MixState
  | .write i b => (writeFn m i b).1
  | .flush i => (flushFn m i).1

/-- Apply a sequence of events. -/
def runEvents (m : MixState) (evts : List Event) : MixState :=
  evts.foldl stepEvent m

/-- `New(nc)` followed by `n` sink registrations declaring rate `srate`
and channel count `nc`. -/
def startState (nc srate n : ℕ) : MixState :=
  (List.range n).foldl (fun s _ => (sinkReg s srate nc).1) (newMixer nc)

/-- An event is well-formed when its slot is registered and not yet
flushed (a flushed slot's write or second flush dereferences a `nil`
frame pointer or closes `done` twice in Go). -/
def wfEvent (m : MixState) : Event → Bool
  | .write i _ =>
    match m.inputs[i]? with
    | some inp => !inp.flushed
    | none => false
  | .flush i =>
    match m.inputs[i]? with
    | some inp => !inp.flushed
    | none => false

/-- Well-formedness of a whole event sequence from a state. -/
def wfEvents : MixState → List Event → Bool
  | _, [] => true
  | m, e :: rest => wfEvent m e && wfEvents (stepEvent m e) rest

/-- Result of one call of the pull function returned by `Mixer.Pump`. -/
inductive PullResult where
  | frameData (b : Buf)
  | eof
  | blocked
deriving Repr, DecidableEq

/-- The pull function returned by `Mixer.Pump`: receive the next frame
from `output` if one is available (`consumed` counts frames already
received), else report `io.EOF` if `done` is closed, else block. -/
def pullFn (m : MixState) (consumed : ℕ) (dst : Buf) : PullResult × ℕ :=
  match m.output[consumed]? with
  | some p => (.frameData (p.2.copySum dst), consumed + 1)
  | none => if m.doneClosed then (.eof, consumed) else (.blocked, consumed)

/-- The `(sampleRate, numChannels)` pair reported by `Mixer.Pump`. -/
def pumpProps (m : MixState) : ℕ × ℕ := (m.sampleRate, m.numChannels)

/-- A sequence of registrations `(rate, channels)` applied to a mixer. -/
def regFold (m : MixState) (regs : List (ℕ × ℕ)) : MixState :=
  regs.foldl (fun s r => (sinkReg s r.1 r.2).1) m

/-- Number of flushed inputs whose flush walk started at or before `k`
(exactly the flushes that decremented frame `k`'s `expected`). -/
def flushedLE (inputs : List InputState) (k : ℕ) : ℕ :=
  inputs.countP (fun inp => inp.flushed && decide (inp.pos ≤ k))

/-- Number of inputs that have written through frame `k`. -/
def wrotePast (inputs : List InputState) (k : ℕ) : ℕ :=
  inputs.countP (fun inp => decide (k < inp.pos))

/-- Reachability invariant of the mixing engine. -/
structure Inv (s : MixState) : Prop where
  posLt : ∀ inp ∈ s.inputs, inp.pos < s.chain.length
  expectedEq : ∀ k f, s.chain[k]? = some f →
      f.expected = (s.inputs.length : ℤ) - (flushedLE s.inputs k : ℤ)
  summedEq : ∀ k f, s.chain[k]? = some f → f.summed = wrotePast s.inputs k
  outLt : ∀ p ∈ s.output, p.1 < s.chain.length
  pushedLe : ∀ p ∈ s.output, ∀ f, s.chain[p.1]? = some f →
      f.expected ≤ (f.summed : ℤ)
  pushedComplete : ∀ p ∈ s.output, p.2.isComplete = true
  completePushed : ∀ k f, s.chain[k]? = some f → f.isComplete = true →
      k ∈ s.output.map Prod.fst
  outNodup : (s.output.map Prod.fst).Nodup
  activeEq : s.activeInputs = (s.inputs.countP (fun inp => !inp.flushed) : ℤ)
  doneIff : s.doneClosed = (!s.inputs.isEmpty && s.inputs.all (fun inp => inp.flushed))

/-- A block of producer A in the spec's concrete scenario: 1 channel,
2 samples of value 0.7. -/
def bufA : Buf := [[7/10, 7/10]]

/-- A block of producer B in the spec's concrete scenario: 1 channel,
2 samples of value 0.5. -/
def bufB : Buf := [[1/2, 1/2]]

/-- The destination buffer `signal.Float64Buffer(1, 2)` used by each pull. -/
def dst2 : Buf := [[0, 0]]

/-- The event order of the spec's concrete scenario (and of the repo's
"regular test"): A and B alternate blocks; B flushes after its 3rd block
(immediately after A's 4th write, matching the test's track order), then
A flushes. -/
def evtsC2 : List Event :=
  [.write 0 bufA, .write 1 bufB,
   .write 0 bufA, .write 1 bufB,
   .write 0 bufA, .write 1 bufB,
   .write 0 bufA, .flush 1,
   .flush 0]

theorem countP_set (p : InputState → Bool) :
    ∀ (l : List InputState) (i : ℕ) (v : InputState), i < l.length →
    (l.set i v).countP p + (if p (l.getD i v) = true then 1 else 0)
      = l.countP p + (if p v = true then 1 else 0) := by
  intro l
  induction l with
  | nil => intro i v h; simp at h
  | cons a t ih =>
    intro i v h
    cases i with
    | zero => simp [List.countP_cons]; omega
    | succ n =>
      simp only [List.set_cons_succ, List.countP_cons, List.getD_cons_succ]
      have := ih n v (by simpa using h)
      omega

theorem countP_disjoint_le (p q : InputState → Bool) (l : List InputState)
    (h : ∀ a ∈ l, ¬(p a = true ∧ q a = true)) :
    l.countP p + l.countP q ≤ l.length := by
  induction l with
  | nil => simp
  | cons a t ih =>
    simp only [List.countP_cons, List.length_cons]
    have ht := ih (fun x hx => h x (List.mem_cons_of_mem a hx))
    have ha := h a (List.mem_cons_self a t)
    by_cases hp : p a = true <;> by_cases hq : q a = true <;> simp_all <;> omega

theorem flushWalk_fst (fs : List Frame) (k : ℕ) :
    (flushWalk fs k).1 = fs.map decExp := by
  induction fs generalizing k with
  | nil => rfl
  | cons f rest ih => simp [flushWalk, decExp, ih]

theorem flushWalk_snd_mem (fs : List Frame) (k : ℕ) (q : ℕ × Frame) :
    q ∈ (flushWalk fs k).2 ↔
      ∃ j f, fs[j]? = some f ∧ q = (k + j, decExp f) ∧ (decExp f).isComplete = true := by
  induction fs generalizing k with
  | nil => simp [flushWalk]
  | cons f rest ih =>
    simp only [flushWalk, List.mem_append]
    constructor
    · intro h
      rcases h with h | h
      · by_cases hc : (decExp f).isComplete = true
        · refine ⟨0, f, by simp, ?_, hc⟩
          simp [hc] at h
          simpa using h
        · simp [hc] at h
      · rcases (ih (k + 1)).mp h with ⟨j, g, hg, hq, hcomp⟩
        exact ⟨j + 1, g, by simpa using hg,
          by simpa [Nat.add_assoc, Nat.add_comm 1 j] using hq, hcomp⟩
    · rintro ⟨j, g, hg, hq, hcomp⟩
      cases j with
      | zero =>
        left
        simp only [List.getElem?_cons_zero, Option.some.injEq] at hg
        subst hg
        simp [hcomp]
        simpa using hq
      | succ j =>
        right
        refine (ih (k + 1)).mpr ⟨j, g, by simpa using hg, ?_, hcomp⟩
        simpa [Nat.add_assoc, Nat.add_comm 1 j] using hq

theorem flushWalk_snd_fst_nodup (fs : List Frame) (k : ℕ) :
    ((flushWalk fs k).2.map Prod.fst).Nodup := by
  induction fs generalizing k with
  | nil => simp [flushWalk]
  | cons f rest ih =>
    simp only [flushWalk, List.map_append]
    by_cases hc : (decExp f).isComplete = true
    · simp only [hc, if_true, List.map_cons, List.map_nil]
      rw [List.nodup_append]
      refine ⟨List.nodup_singleton k, ih (k + 1), ?_⟩
      intro x hx hb
      simp only [List.mem_singleton] at hx
      rcases List.mem_map.mp hb with ⟨q, hq, hfst⟩
      rcases (flushWalk_snd_mem rest (k + 1) q).mp hq with ⟨j, g, _, hqe, _⟩
      subst hqe
      simp at hfst
      omega
    · simp only [hc, if_false, List.map_nil, List.nil_append]
      exact ih (k + 1)

theorem flush_chain_get (chain : List Frame) (p : ℕ) (hp : p ≤ chain.length) (k : ℕ) :
    (chain.take p ++ (flushWalk (chain.drop p) p).1)[k]? =
      if k < p then chain[k]? else (chain[k]?).map decExp := by
  rw [flushWalk_fst]
  have hlt : (chain.take p).length = p := by
    simp [List.length_take]; omega
  by_cases h : k < p
  · rw [List.getElem?_append, hlt, if_pos h, List.getElem?_take, if_pos h, if_pos h]
  · have h' : (chain.take p).length ≤ k := by omega
    rw [List.getElem?_append_right h', hlt, List.getElem?_map, List.getElem?_drop, if_neg h]
    have hk : p + (k - p) = k := by omega
    rw [hk]

theorem flush_chain_length (chain : List Frame) (p : ℕ) (hp : p ≤ chain.length) :
    (chain.take p ++ (flushWalk (chain.drop p) p).1).length = chain.length := by
  rw [flushWalk_fst]
  simp [List.length_take, List.length_drop]
  omega

theorem writeFn_eq (s : MixState) (i : ℕ) (b : Buf) (inp : InputState) (f : Frame)
    (hi : s.inputs[i]? = some inp) (hc : s.chain[inp.pos]? = some f) :
    writeFn s i b =
      ({ s with
          chain :=
            if inp.pos + 1 < s.chain.length then s.chain.set inp.pos (f.add b)
            else s.chain.set inp.pos (f.add b) ++ [newFrame (f.add b).expected s.numChannels],
          output :=
            if (f.add b).isComplete then s.output ++ [(inp.pos, f.add b)] else s.output,
          inputs := s.inputs.set i { inp with pos := inp.pos + 1 } }, none) := by
  unfold writeFn
  rw [hi]
  simp only [hc]

theorem flushFn_eq (s : MixState) (i : ℕ) (inp : InputState)
    (hi : s.inputs[i]? = some inp) :
    flushFn s i =
      ({ s with
          chain := s.chain.take inp.pos ++ (flushWalk (s.chain.drop inp.pos) inp.pos).1,
          output := s.output ++ (flushWalk (s.chain.drop inp.pos) inp.pos).2,
          inputs := s.inputs.set i { inp with flushed := true },
          activeInputs := s.activeInputs - 1,
          doneClosed := s.doneClosed || decide (s.activeInputs - 1 = 0) }, none) := by
  unfold flushFn
  rw [hi]

theorem startState_eq (nc srate : ℕ) : ∀ n : ℕ, startState nc srate n =
    { numChannels := nc, sampleRate := if n = 0 then 0 else srate,
      chain := [{ buffer := List.replicate nc [], summed := 0, expected := (n : ℤ) }],
      inputs := List.replicate n { pos := 0, flushed := false, channels := nc },
      output := [], activeInputs := (n : ℤ), doneClosed := false } := by
  intro n
  induction n with
  | zero => rfl
  | succ n ih =>
    have : startState nc srate (n + 1) = (sinkReg (startState nc srate n) srate nc).1 := by
      unfold startState
      rw [List.range_succ, List.foldl_append]
      rfl
    rw [this, ih]
    simp only [sinkReg, MixState.mk.injEq]
    and_intros
    all_goals first
      | trivial
      | rw [← List.replicate_succ' n]

theorem inv_start (nc srate n : ℕ) : Inv (startState nc srate n) := by
  rw [startState_eq]
  constructor
  · intro inp hinp
    rw [List.eq_of_mem_replicate hinp]
    simp
  · intro k f hf
    simp only [List.getElem?_eq_some] at hf
    rcases hf with ⟨hk, hf⟩
    simp only [List.length_singleton] at hk
    interval_cases k
    simp at hf
    subst hf
    simp [flushedLE, List.countP_replicate]
  · intro k f hf
    simp only [List.getElem?_eq_some] at hf
    rcases hf with ⟨hk, hf⟩
    simp only [List.length_singleton] at hk
    interval_cases k
    simp at hf
    subst hf
    simp [wrotePast, List.countP_replicate]
  · intro p hp; simp at hp
  · intro p hp; simp at hp
  · intro p hp; simp at hp
  · intro k f hf hcomp
    simp only [List.getElem?_eq_some] at hf
    rcases hf with ⟨hk, hf⟩
    simp only [List.length_singleton] at hk
    interval_cases k
    simp at hf
    subst hf
    simp only [Frame.isComplete, decide_eq_true_eq] at hcomp
    omega
  · simp
  · simp [List.countP_replicate]
  · cases n with
    | zero => simp
    | succ m => simp [List.replicate_succ]

theorem add_expected (f : Frame) (b : Buf) : (f.add b).expected = f.expected := rfl

theorem add_summed (f : Frame) (b : Buf) : (f.add b).summed = f.summed + 1 := rfl

theorem isComplete_iff (f : Frame) :
    f.isComplete = true ↔ 0 < f.expected ∧ f.expected = (f.summed : ℤ) := by
  simp [Frame.isComplete]


theorem inv_write (s : MixState) (i : ℕ) (b : Buf) (inp : InputState)
    (hi : s.inputs[i]? = some inp) (hnf : inp.flushed = false) (hInv : Inv s) :
    Inv (writeFn s i b).1 := by
  obtain ⟨ipos, ifl, ich⟩ := inp
  dsimp only at hnf
  subst hnf
  obtain ⟨hilen, hie⟩ := List.getElem?_eq_some.mp hi
  have hmem : (⟨ipos, false, ich⟩ : InputState) ∈ s.inputs := by
    rw [← hie]; exact List.getElem_mem hilen
  have hpos : ipos < s.chain.length := hInv.posLt _ hmem
  obtain ⟨f, hcg⟩ : ∃ f, s.chain[ipos]? = some f := ⟨_, List.getElem?_eq_getElem hpos⟩
  rw [writeFn_eq s i b _ f hi hcg]
  dsimp only
  have hset := fun (p : InputState → Bool) =>
    countP_set p s.inputs i ⟨ipos + 1, false, ich⟩ hilen
  have hgetD : s.inputs.getD i ⟨ipos + 1, false, ich⟩ = (⟨ipos, false, ich⟩ : InputState) := by
    rw [List.getD_eq_getElem?_getD, hi]; rfl
  rw [hgetD] at hset
  have hflushLE : ∀ k, flushedLE (s.inputs.set i (⟨ipos + 1, false, ich⟩ : InputState)) k
      = flushedLE s.inputs k := by
    intro k
    have h := hset (fun x => x.flushed && decide (x.pos ≤ k))
    simp only [Bool.false_and] at h
    simp only [flushedLE]
    simp at h
    exact h
  have hpast : ∀ k, k ≠ ipos → wrotePast (s.inputs.set i (⟨ipos + 1, false, ich⟩ : InputState)) k
      = wrotePast s.inputs k := by
    intro k hk
    have h := hset (fun x => decide (k < x.pos))
    simp only [decide_eq_true_eq] at h
    simp only [wrotePast]
    split_ifs at h with h1 h2 h2 <;> omega
  have hpastPos : wrotePast (s.inputs.set i (⟨ipos + 1, false, ich⟩ : InputState)) ipos
      = wrotePast s.inputs ipos + 1 := by
    have h := hset (fun x => decide (ipos < x.pos))
    simp only [decide_eq_true_eq] at h
    simp only [wrotePast]
    split_ifs at h with h1 h2 h2 <;> omega
  have hunflushed : (s.inputs.set i (⟨ipos + 1, false, ich⟩ : InputState)).countP (fun x => !x.flushed)
      = s.inputs.countP (fun x => !x.flushed) := by
    have h := hset (fun x => !x.flushed)
    simp only [Bool.not_false] at h
    simp at h
    omega
  have hallF1 : (s.inputs.all (fun x => x.flushed)) = false := by
    rw [Bool.eq_false_iff]
    intro hall
    have := List.all_eq_true.mp hall _ hmem
    simp at this
  have hallF2 : ((s.inputs.set i (⟨ipos + 1, false, ich⟩ : InputState)).all (fun x => x.flushed))
      = false := by
    rw [Bool.eq_false_iff]
    intro hall
    have hm2 : ((⟨ipos + 1, false, ich⟩ : InputState) : InputState)
        ∈ s.inputs.set i (⟨ipos + 1, false, ich⟩ : InputState) := by
      rw [List.mem_iff_getElem?]
      exact ⟨i, by rw [List.getElem?_set]; simp [hilen]⟩
    have := List.all_eq_true.mp hall _ hm2
    simp at this
  have hIlen : (s.inputs.set i (⟨ipos + 1, false, ich⟩ : InputState)).length = s.inputs.length :=
    List.length_set s.inputs i _
  have hne1 : s.inputs.isEmpty = false := by
    rw [Bool.eq_false_iff]
    intro he
    rw [List.isEmpty_iff] at he
    rw [he] at hilen
    simp at hilen
  have hne2 : (s.inputs.set i (⟨ipos + 1, false, ich⟩ : InputState)).isEmpty = false := by
    rw [Bool.eq_false_iff]
    intro he
    rw [List.isEmpty_iff] at he
    have := congrArg List.length he
    rw [hIlen] at this
    rw [this] at hilen
    simp at hilen
  have hsget : ∀ k, (s.chain.set ipos (f.add b))[k]? =
      if ipos = k then some (f.add b) else s.chain[k]? := by
    intro k
    rw [List.getElem?_set]
    by_cases h1 : ipos = k
    · subst h1; simp [hpos]
    · simp [h1]
  have hmemI : ∀ x ∈ s.inputs.set i (⟨ipos + 1, false, ich⟩ : InputState),
      x ∈ s.inputs ∨ x = (⟨ipos + 1, false, ich⟩ : InputState) := fun x hx =>
    List.mem_or_eq_of_mem_set hx
  have hfc := hInv.expectedEq ipos f hcg
  have hfs := hInv.summedEq ipos f hcg
  by_cases hnext : ipos + 1 < s.chain.length
  · -- successor already present: the chain is only updated at `ipos`
    rw [if_pos hnext]
    constructor
    · intro x hx
      rw [List.length_set]
      rcases hmemI x hx with h | h
      · exact hInv.posLt x h
      · rw [h]; exact hnext
    · intro k g hg
      rw [hsget k] at hg
      rw [hIlen, hflushLE]
      by_cases h1 : ipos = k
      · rw [if_pos h1] at hg
        injection hg with hg
        rw [← hg, add_expected]
        rw [h1] at hfc
        exact hfc
      · rw [if_neg h1] at hg
        exact hInv.expectedEq k g hg
    · intro k g hg
      rw [hsget k] at hg
      by_cases h1 : ipos = k
      · rw [if_pos h1] at hg
        injection hg with hg
        rw [← hg, add_summed, ← h1, hpastPos, hfs, h1]
      · rw [if_neg h1] at hg
        rw [hpast k (fun hh => h1 hh.symm)]
        exact hInv.summedEq k g hg
    · intro p hp
      rw [List.length_set]
      by_cases hcomp : (f.add b).isComplete = true
      · rw [if_pos hcomp] at hp
        rcases List.mem_append.mp hp with h | h
        · exact hInv.outLt p h
        · rw [List.mem_singleton.mp h]; exact hpos
      · rw [if_neg hcomp] at hp
        exact hInv.outLt p hp
    · intro p hp g hg
      rw [hsget p.1] at hg
      by_cases hcomp : (f.add b).isComplete = true
      · rw [if_pos hcomp] at hp
        rcases List.mem_append.mp hp with h | h
        · by_cases h1 : ipos = p.1
          · rw [if_pos h1] at hg
            injection hg with hg
            have := hInv.pushedLe p h f (h1 ▸ hcg)
            rw [← hg, add_expected, add_summed]
            push_cast
            omega
          · rw [if_neg h1] at hg
            exact hInv.pushedLe p h g hg
        · have hpe : p = (ipos, f.add b) := List.mem_singleton.mp h
          rw [hpe] at hg
          rw [if_pos rfl] at hg
          injection hg with hg
          rw [← hg]
          rcases (isComplete_iff _).mp hcomp with ⟨_, he⟩
          omega
      · rw [if_neg hcomp] at hp
        by_cases h1 : ipos = p.1
        · rw [if_pos h1] at hg
          injection hg with hg
          have := hInv.pushedLe p hp f (h1 ▸ hcg)
          rw [← hg, add_expected, add_summed]
          push_cast
          omega
        · rw [if_neg h1] at hg
          exact hInv.pushedLe p hp g hg
    · intro p hp
      by_cases hcomp : (f.add b).isComplete = true
      · rw [if_pos hcomp] at hp
        rcases List.mem_append.mp hp with h | h
        · exact hInv.pushedComplete p h
        · rw [List.mem_singleton.mp h]; exact hcomp
      · rw [if_neg hcomp] at hp
        exact hInv.pushedComplete p hp
    · intro k g hg hgc
      rw [hsget k] at hg
      by_cases h1 : ipos = k
      · rw [if_pos h1] at hg
        injection hg with hg
        have hcomp : (f.add b).isComplete = true := hg ▸ hgc
        rw [if_pos hcomp, List.map_append, List.mem_append]
        right
        rw [← h1]
        simp
      · rw [if_neg h1] at hg
        have hin := hInv.completePushed k g hg hgc
        by_cases hcomp : (f.add b).isComplete = true
        · rw [if_pos hcomp, List.map_append, List.mem_append]
          exact Or.inl hin
        · rw [if_neg hcomp]
          exact hin
    · by_cases hcomp : (f.add b).isComplete = true
      · rw [if_pos hcomp, List.map_append]
        rw [List.nodup_append]
        refine ⟨hInv.outNodup, by simp, ?_⟩
        intro x hx hx2
        simp only [List.map_cons, List.map_nil, List.mem_singleton] at hx2
        subst hx2
        rcases List.mem_map.mp hx with ⟨p, hp, hpe⟩
        have hcg' : s.chain[p.1]? = some f := by rw [hpe]; exact hcg
        have := hInv.pushedLe p hp f hcg'
        rcases (isComplete_iff _).mp hcomp with ⟨_, he⟩
        rw [add_expected, add_summed] at he
        push_cast at he
        omega
      · rw [if_neg hcomp]
        exact hInv.outNodup
    · rw [hunflushed]
      exact hInv.activeEq
    · rw [hInv.doneIff, hallF1, hallF2, hne1, hne2]
  · -- successor absent: a frame with the current frame's expected is appended
    rw [if_neg hnext]
    have hlast : ipos + 1 = s.chain.length := by omega
    have hCget : ∀ k,
        (s.chain.set ipos (f.add b) ++ [newFrame (f.add b).expected s.numChannels])[k]? =
        if ipos = k then some (f.add b)
        else if k = s.chain.length then some (newFrame (f.add b).expected s.numChannels)
        else s.chain[k]? := by
      intro k
      rw [List.getElem?_append, List.length_set]
      by_cases hk : k < s.chain.length
      · rw [if_pos hk, hsget k]
        by_cases h1 : ipos = k
        · rw [if_pos h1, if_pos h1]
        · rw [if_neg h1, if_neg h1, if_neg (by omega : ¬(k = s.chain.length))]
      · rw [if_neg hk]
        have h1 : ¬(ipos = k) := by omega
        rw [if_neg h1]
        by_cases h2 : k = s.chain.length
        · subst h2
          rw [if_pos rfl, Nat.sub_self]
          rfl
        · rw [if_neg h2]
          rw [List.getElem?_eq_none (by simp; omega),
            List.getElem?_eq_none (by omega)]
    have hClen :
        (s.chain.set ipos (f.add b) ++ [newFrame (f.add b).expected s.numChannels]).length
        = s.chain.length + 1 := by
      rw [List.length_append, List.length_set]
      rfl
    constructor
    · intro x hx
      rw [hClen]
      rcases hmemI x hx with h | h
      · have := hInv.posLt x h
        omega
      · rw [h]
        show ipos + 1 < s.chain.length + 1
        omega
    · intro k g hg
      rw [hCget k] at hg
      rw [hIlen, hflushLE]
      by_cases h1 : ipos = k
      · rw [if_pos h1] at hg
        injection hg with hg
        rw [← hg, add_expected]
        rw [h1] at hfc
        exact hfc
      · rw [if_neg h1] at hg
        by_cases h2 : k = s.chain.length
        · rw [if_pos h2] at hg
          injection hg with hg
          rw [← hg]
          show (f.add b).expected = _
          rw [add_expected]
          have hfl : flushedLE s.inputs k = flushedLE s.inputs ipos := by
            simp only [flushedLE]
            apply List.countP_congr
            intro x hx
            have hxp : x.pos < s.chain.length := hInv.posLt x hx
            cases hxf : x.flushed
            · simp
            · simp only [Bool.true_and, decide_eq_true_eq]
              omega
          rw [hfl]
          exact hfc
        · rw [if_neg h2] at hg
          exact hInv.expectedEq k g hg
    · intro k g hg
      rw [hCget k] at hg
      by_cases h1 : ipos = k
      · rw [if_pos h1] at hg
        injection hg with hg
        rw [← hg, add_summed, ← h1, hpastPos, hfs, h1]
      · rw [if_neg h1] at hg
        by_cases h2 : k = s.chain.length
        · rw [if_pos h2] at hg
          injection hg with hg
          rw [← hg]
          have hz : wrotePast (s.inputs.set i (⟨ipos + 1, false, ich⟩ : InputState)) k = 0 := by
            simp only [wrotePast]
            rw [List.countP_eq_zero]
            intro x hx
            simp only [decide_eq_true_eq]
            rcases hmemI x hx with h | h
            · have := hInv.posLt x h
              omega
            · rw [h]
              show ¬(k < ipos + 1)
              omega
          rw [hz]
          rfl
        · rw [if_neg h2] at hg
          rw [hpast k (fun hh => h1 hh.symm)]
          exact hInv.summedEq k g hg
    · intro p hp
      rw [hClen]
      by_cases hcomp : (f.add b).isComplete = true
      · rw [if_pos hcomp] at hp
        rcases List.mem_append.mp hp with h | h
        · have := hInv.outLt p h
          omega
        · rw [List.mem_singleton.mp h]
          show ipos < s.chain.length + 1
          omega
      · rw [if_neg hcomp] at hp
        have := hInv.outLt p hp
        omega
    · intro p hp g hg
      rw [hCget p.1] at hg
      by_cases hcomp : (f.add b).isComplete = true
      · rw [if_pos hcomp] at hp
        rcases List.mem_append.mp hp with h | h
        · have hlt := hInv.outLt p h
          by_cases h1 : ipos = p.1
          · rw [if_pos h1] at hg
            injection hg with hg
            have := hInv.pushedLe p h f (h1 ▸ hcg)
            rw [← hg, add_expected, add_summed]
            push_cast
            omega
          · rw [if_neg h1, if_neg (by omega : ¬(p.1 = s.chain.length))] at hg
            exact hInv.pushedLe p h g hg
        · have hpe : p = (ipos, f.add b) := List.mem_singleton.mp h
          rw [hpe] at hg
          rw [if_pos rfl] at hg
          injection hg with hg
          rw [← hg]
          rcases (isComplete_iff _).mp hcomp with ⟨_, he⟩
          omega
      · rw [if_neg hcomp] at hp
        have hlt := hInv.outLt p hp
        by_cases h1 : ipos = p.1
        · rw [if_pos h1] at hg
          injection hg with hg
          have := hInv.pushedLe p hp f (h1 ▸ hcg)
          rw [← hg, add_expected, add_summed]
          push_cast
          omega
        · rw [if_neg h1, if_neg (by omega : ¬(p.1 = s.chain.length))] at hg
          exact hInv.pushedLe p hp g hg
    · intro p hp
      by_cases hcomp : (f.add b).isComplete = true
      · rw [if_pos hcomp] at hp
        rcases List.mem_append.mp hp with h | h
        · exact hInv.pushedComplete p h
        · rw [List.mem_singleton.mp h]; exact hcomp
      · rw [if_neg hcomp] at hp
        exact hInv.pushedComplete p hp
    · intro k g hg hgc
      rw [hCget k] at hg
      by_cases h1 : ipos = k
      · rw [if_pos h1] at hg
        injection hg with hg
        have hcomp : (f.add b).isComplete = true := hg ▸ hgc
        rw [if_pos hcomp, List.map_append, List.mem_append]
        right
        rw [← h1]
        simp
      · rw [if_neg h1] at hg
        by_cases h2 : k = s.chain.length
        · rw [if_pos h2] at hg
          injection hg with hg
          exfalso
          rw [← hg] at hgc
          rcases (isComplete_iff _).mp hgc with ⟨hp2, he⟩
          simp only [newFrame] at hp2 he
          push_cast at he
          omega
        · rw [if_neg h2] at hg
          have hin := hInv.completePushed k g hg hgc
          by_cases hcomp : (f.add b).isComplete = true
          · rw [if_pos hcomp, List.map_append, List.mem_append]
            exact Or.inl hin
          · rw [if_neg hcomp]
            exact hin
    · by_cases hcomp : (f.add b).isComplete = true
      · rw [if_pos hcomp, List.map_append]
        rw [List.nodup_append]
        refine ⟨hInv.outNodup, by simp, ?_⟩
        intro x hx hx2
        simp only [List.map_cons, List.map_nil, List.mem_singleton] at hx2
        subst hx2
        rcases List.mem_map.mp hx with ⟨p, hp, hpe⟩
        have hcg' : s.chain[p.1]? = some f := by rw [hpe]; exact hcg
        have := hInv.pushedLe p hp f hcg'
        rcases (isComplete_iff _).mp hcomp with ⟨_, he⟩
        rw [add_expected, add_summed] at he
        push_cast at he
        omega
      · rw [if_neg hcomp]
        exact hInv.outNodup
    · rw [hunflushed]
      exact hInv.activeEq
    · rw [hInv.doneIff, hallF1, hallF2, hne1, hne2]
theorem inv_flush (s : MixState) (i : ℕ) (inp : InputState)
    (hi : s.inputs[i]? = some inp) (hnf : inp.flushed = false) (hInv : Inv s) :
    Inv (flushFn s i).1 := by
  obtain ⟨ipos, ifl, ich⟩ := inp
  dsimp only at hnf
  subst hnf
  obtain ⟨hilen, hie⟩ := List.getElem?_eq_some.mp hi
  have hmem : (⟨ipos, false, ich⟩ : InputState) ∈ s.inputs := by
    rw [← hie]; exact List.getElem_mem hilen
  have hpos : ipos < s.chain.length := hInv.posLt _ hmem
  rw [flushFn_eq s i _ hi]
  dsimp only
  have hCget := flush_chain_get s.chain ipos (le_of_lt hpos)
  have hClen := flush_chain_length s.chain ipos (le_of_lt hpos)
  have hset := fun (p : InputState → Bool) =>
    countP_set p s.inputs i ⟨ipos, true, ich⟩ hilen
  have hgetD : s.inputs.getD i ⟨ipos, true, ich⟩ = (⟨ipos, false, ich⟩ : InputState) := by
    rw [List.getD_eq_getElem?_getD, hi]; rfl
  rw [hgetD] at hset
  have hflushLE : ∀ k, flushedLE (s.inputs.set i ⟨ipos, true, ich⟩) k
      = if ipos ≤ k then flushedLE s.inputs k + 1 else flushedLE s.inputs k := by
    intro k
    have h := hset (fun x => x.flushed && decide (x.pos ≤ k))
    simp only [Bool.false_and, Bool.true_and] at h
    simp only [flushedLE]
    by_cases hk : ipos ≤ k
    · rw [if_pos hk]
      rw [if_neg (by simp), if_pos (by simp [hk])] at h
      omega
    · rw [if_neg hk]
      rw [if_neg (by simp), if_neg (by simp [hk])] at h
      omega
  have hpast : ∀ k, wrotePast (s.inputs.set i ⟨ipos, true, ich⟩) k = wrotePast s.inputs k := by
    intro k
    have h := hset (fun x => decide (k < x.pos))
    simp only [decide_eq_true_eq] at h
    simp only [wrotePast]
    split_ifs at h <;> omega
  have hunflushed : (s.inputs.set i ⟨ipos, true, ich⟩).countP (fun x => !x.flushed) + 1
      = s.inputs.countP (fun x => !x.flushed) := by
    have h := hset (fun x => !x.flushed)
    simp only [Bool.not_false, Bool.not_true] at h
    simp at h
    omega
  have hallF1 : (s.inputs.all (fun x => x.flushed)) = false := by
    rw [Bool.eq_false_iff]
    intro hall
    have := List.all_eq_true.mp hall _ hmem
    simp at this
  have hIlen : (s.inputs.set i ⟨ipos, true, ich⟩).length = s.inputs.length :=
    List.length_set s.inputs i _
  have hne2 : (s.inputs.set i ⟨ipos, true, ich⟩).isEmpty = false := by
    rw [Bool.eq_false_iff]
    intro he
    rw [List.isEmpty_iff] at he
    have := congrArg List.length he
    rw [hIlen] at this
    rw [this] at hilen
    simp at hilen
  have hmemI : ∀ x ∈ s.inputs.set i ⟨ipos, true, ich⟩,
      x ∈ s.inputs ∨ x = (⟨ipos, true, ich⟩ : InputState) := fun x hx =>
    List.mem_or_eq_of_mem_set hx
  have hwmem : ∀ q ∈ (flushWalk (s.chain.drop ipos) ipos).2,
      ipos ≤ q.1 ∧ ∃ f0, s.chain[q.1]? = some f0 ∧ q.2 = decExp f0
        ∧ (decExp f0).isComplete = true := by
    intro q hq
    rcases (flushWalk_snd_mem _ _ _).mp hq with ⟨j, g, hg, hqe, hcomp⟩
    rw [List.getElem?_drop] at hg
    subst hqe
    exact ⟨Nat.le_add_right ipos j, g, hg, rfl, hcomp⟩
  constructor
  · intro x hx
    rw [hClen]
    rcases hmemI x hx with h | h
    · exact hInv.posLt x h
    · rw [h]
      exact hpos
  · intro k g hg
    rw [hCget k] at hg
    rw [hIlen, hflushLE]
    by_cases hk : k < ipos
    · rw [if_pos hk] at hg
      rw [if_neg (by omega)]
      exact hInv.expectedEq k g hg
    · rw [if_neg hk] at hg
      rw [if_pos (by omega)]
      rcases Option.map_eq_some'.mp hg with ⟨f0, hf0, hge⟩
      have := hInv.expectedEq k f0 hf0
      rw [← hge]
      simp only [decExp]
      push_cast
      omega
  · intro k g hg
    rw [hCget k] at hg
    rw [hpast]
    by_cases hk : k < ipos
    · rw [if_pos hk] at hg
      exact hInv.summedEq k g hg
    · rw [if_neg hk] at hg
      rcases Option.map_eq_some'.mp hg with ⟨f0, hf0, hge⟩
      have := hInv.summedEq k f0 hf0
      rw [← hge]
      simp only [decExp]
      omega
  · intro p hp
    rw [hClen]
    rcases List.mem_append.mp hp with h | h
    · exact hInv.outLt p h
    · rcases hwmem p h with ⟨_, f0, hf0, _, _⟩
      exact (List.getElem?_eq_some.mp hf0).1
  · intro p hp g hg
    rw [hCget p.1] at hg
    rcases List.mem_append.mp hp with h | h
    · by_cases hk : p.1 < ipos
      · rw [if_pos hk] at hg
        exact hInv.pushedLe p h g hg
      · rw [if_neg hk] at hg
        rcases Option.map_eq_some'.mp hg with ⟨f0, hf0, hge⟩
        have := hInv.pushedLe p h f0 hf0
        rw [← hge]
        simp only [decExp]
        omega
    · rcases hwmem p h with ⟨hle, f0, hf0, hpe, hcomp⟩
      rw [if_neg (by omega), hf0] at hg
      simp only [Option.map_some'] at hg
      injection hg with hg
      rcases (isComplete_iff _).mp hcomp with ⟨_, he⟩
      rw [← hg]
      simp only [decExp] at he ⊢
      omega
  · intro p hp
    rcases List.mem_append.mp hp with h | h
    · exact hInv.pushedComplete p h
    · rcases hwmem p h with ⟨_, f0, _, hpe, hcomp⟩
      rw [hpe]
      exact hcomp
  · intro k g hg hgc
    rw [hCget k] at hg
    rw [List.map_append, List.mem_append]
    by_cases hk : k < ipos
    · rw [if_pos hk] at hg
      exact Or.inl (hInv.completePushed k g hg hgc)
    · rw [if_neg hk] at hg
      rcases Option.map_eq_some'.mp hg with ⟨f0, hf0, hge⟩
      right
      rw [List.mem_map]
      refine ⟨(k, g), ?_, rfl⟩
      rw [flushWalk_snd_mem]
      refine ⟨k - ipos, f0, ?_, ?_, ?_⟩
      · rw [List.getElem?_drop]
        rw [(by omega : ipos + (k - ipos) = k)]
        exact hf0
      · rw [← hge, (by omega : ipos + (k - ipos) = k)]
      · rw [hge]
        exact hgc
  · rw [List.map_append, List.nodup_append]
    refine ⟨hInv.outNodup, flushWalk_snd_fst_nodup _ _, ?_⟩
    intro x hx hx2
    rcases List.mem_map.mp hx with ⟨p, hp, hpe⟩
    rcases List.mem_map.mp hx2 with ⟨q, hq, hqe⟩
    rcases hwmem q hq with ⟨hle, f0, hf0, hq2, hcomp⟩
    have hcg' : s.chain[p.1]? = some f0 := by rw [hpe, ← hqe]; exact hf0
    have := hInv.pushedLe p hp f0 hcg'
    rcases (isComplete_iff _).mp hcomp with ⟨hp2, he⟩
    simp only [decExp] at hp2 he
    omega
  · rw [hInv.activeEq]
    push_cast
    omega
  · have h1 : s.doneClosed = false := by
      rw [hInv.doneIff, hallF1, Bool.and_false]
    rw [h1, Bool.false_or, hne2]
    simp only [Bool.not_false, Bool.true_and]
    have hact : s.activeInputs - 1
        = ((s.inputs.set i ⟨ipos, true, ich⟩).countP (fun x => !x.flushed) : ℤ) := by
      rw [hInv.activeEq]
      push_cast
      omega
    rw [hact]
    cases hall : ((s.inputs.set i ⟨ipos, true, ich⟩).all (fun x => x.flushed)) with
    | false =>
      rcases List.all_eq_false.mp hall with ⟨x, hx, hxf⟩
      have hc : 0 < (s.inputs.set i ⟨ipos, true, ich⟩).countP (fun x => !x.flushed) := by
        rw [List.countP_pos]
        exact ⟨x, hx, by simp [Bool.eq_false_iff.mpr hxf]⟩
      rw [decide_eq_false_iff_not]
      push_cast
      omega
    | true =>
      have hc : (s.inputs.set i ⟨ipos, true, ich⟩).countP (fun x => !x.flushed) = 0 := by
        rw [List.countP_eq_zero]
        intro x hx
        have := List.all_eq_true.mp hall x hx
        simp [this]
      rw [hc]
      simp

theorem inv_step (s : MixState) (e : Event) (hw : wfEvent s e = true) (hInv : Inv s) :
    Inv (stepEvent s e) := by
  cases e with
  | write i b =>
    cases hi : s.inputs[i]? with
    | none => simp [wfEvent, hi] at hw
    | some inp =>
      simp only [wfEvent, hi, Bool.not_eq_true'] at hw
      exact inv_write s i b inp hi hw hInv
  | flush i =>
    cases hi : s.inputs[i]? with
    | none => simp [wfEvent, hi] at hw
    | some inp =>
      simp only [wfEvent, hi, Bool.not_eq_true'] at hw
      exact inv_flush s i inp hi hw hInv

theorem inv_run (s : MixState) (evts : List Event) (hw : wfEvents s evts = true)
    (hInv : Inv s) : Inv (runEvents s evts) := by
  induction evts generalizing s with
  | nil => exact hInv
  | cons e rest ih =>
    simp only [wfEvents, Bool.and_eq_true] at hw
    simp only [runEvents, List.foldl_cons]
    exact ih (stepEvent s e) hw.2 (inv_step s e hw.1 hInv)

theorem wfEvents_take (s : MixState) (evts : List Event)
    (h : wfEvents s evts = true) : ∀ t, wfEvents s (evts.take t) = true := by
  induction evts generalizing s with
  | nil => intro t; simp [List.take_nil]; rfl
  | cons e rest ih =>
    intro t
    cases t with
    | zero => rfl
    | succ t =>
      simp only [wfEvents, Bool.and_eq_true] at h
      simp only [List.take_succ_cons, wfEvents, Bool.and_eq_true]
      exact ⟨h.1, ih (stepEvent s e) h.2 t⟩

/-- C1: over every well-formed sequence of write and flush events from a
mixer whose `n` sink registrations all precede the first write, (1) no
frame is sent to output twice — the sent chain indices are duplicate-free;
(2) every frame was complete (`expected > 0 ∧ expected = summed`, the
code's encoding of `added > 0 ∧ added + flushed = expected`) at the moment
it was sent; (3) at every intermediate moment, a frame of the chain that
is complete has been sent already. -/
theorem frame_pushed_exactly_once (nc srate n : ℕ) (evts : List Event)
    (hwf : wfEvents (startState nc srate n) evts = true) :
    (((runEvents (startState nc srate n) evts).output.map Prod.fst).Nodup) ∧
    (∀ p ∈ (runEvents (startState nc srate n) evts).output, p.2.isComplete = true) ∧
    (∀ t k f, (runEvents (startState nc srate n) (evts.take t)).chain[k]? = some f →
      f.isComplete = true →
      k ∈ (runEvents (startState nc srate n) (evts.take t)).output.map Prod.fst) := by
  have hInv := inv_run _ evts hwf (inv_start nc srate n)
  refine ⟨hInv.outNodup, hInv.pushedComplete, ?_⟩
  intro t k f hf hc
  have hInvT := inv_run _ _ (wfEvents_take _ evts hwf t) (inv_start nc srate n)
  exact hInvT.completePushed k f hf hc

/-- C5: when all sink registrations precede the first write, every frame of
the chain satisfies `summed ≤ expected` (the code's encoding of the spec's
`added + flushed ≤ expected`) in every reachable state. -/
theorem frame_summed_le_expected (nc srate n : ℕ) (evts : List Event)
    (hwf : wfEvents (startState nc srate n) evts = true) :
    ∀ f ∈ (runEvents (startState nc srate n) evts).chain,
      (f.summed : ℤ) ≤ f.expected := by
  have hInv := inv_run _ evts hwf (inv_start nc srate n)
  intro f hf
  rcases List.mem_iff_getElem?.mp hf with ⟨k, hk⟩
  have he := hInv.expectedEq k f hk
  have hs := hInv.summedEq k f hk
  have hd := countP_disjoint_le (fun x => decide (k < x.pos))
    (fun x => x.flushed && decide (x.pos ≤ k))
    (runEvents (startState nc srate n) evts).inputs
    (by
      intro a _ h
      rcases h with ⟨h1, h2⟩
      simp only [decide_eq_true_eq, Bool.and_eq_true] at h1 h2
      omega)
  simp only [wrotePast] at hs
  simp only [flushedLE] at he
  omega

/-- C7: whenever a write creates a frame's successor (the writer's current
frame is the last of the chain), the new frame's `expected` equals the
number of registered producers that have not yet flushed, and its `summed`
starts at 0 — flushed producers are not awaited. -/
theorem successor_expects_unflushed (nc srate n : ℕ) (evts : List Event) (i : ℕ) (b : Buf)
    (inp : InputState)
    (hwf : wfEvents (startState nc srate n) evts = true)
    (hi : (runEvents (startState nc srate n) evts).inputs[i]? = some inp)
    (hnf : inp.flushed = false)
    (hlast : inp.pos + 1 = (runEvents (startState nc srate n) evts).chain.length) :
    ∃ g, (stepEvent (runEvents (startState nc srate n) evts)
        (.write i b)).chain[(runEvents (startState nc srate n) evts).chain.length]? = some g ∧
      g.expected = ((runEvents (startState nc srate n) evts).inputs.countP
        (fun x => !x.flushed) : ℤ) ∧
      g.summed = 0 := by
  have hInv := inv_run _ evts hwf (inv_start nc srate n)
  set s := runEvents (startState nc srate n) evts with hsdef
  obtain ⟨hilen, hie⟩ := List.getElem?_eq_some.mp hi
  have hmem : inp ∈ s.inputs := by rw [← hie]; exact List.getElem_mem hilen
  have hpos : inp.pos < s.chain.length := hInv.posLt _ hmem
  obtain ⟨f, hcg⟩ : ∃ f, s.chain[inp.pos]? = some f := ⟨_, List.getElem?_eq_getElem hpos⟩
  have hstep : stepEvent s (.write i b) = (writeFn s i b).1 := rfl
  rw [hstep, writeFn_eq s i b inp f hi hcg]
  dsimp only
  rw [if_neg (by omega)]
  refine ⟨newFrame (f.add b).expected s.numChannels, ?_, ?_, rfl⟩
  · rw [List.getElem?_append_right (by rw [List.length_set])]
    rw [List.length_set, Nat.sub_self]
    rfl
  · show (f.add b).expected = _
    rw [add_expected]
    have he := hInv.expectedEq inp.pos f hcg
    have hfl : flushedLE s.inputs inp.pos = s.inputs.countP (fun x => x.flushed) := by
      simp only [flushedLE]
      apply List.countP_congr
      intro x hx
      have hxp := hInv.posLt x hx
      cases hxf : x.flushed
      · simp
      · simp only [Bool.true_and, decide_eq_true_eq]
        constructor
        · intro _; trivial
        · intro _; omega
    have hcc : s.inputs.countP (fun x => !x.flushed)
        = s.inputs.countP (fun x => decide ¬(x.flushed = true)) := by
      apply List.countP_congr
      intro x _
      cases hxf : x.flushed <;> simp
    have hlen := List.length_eq_countP_add_countP (fun x => x.flushed) s.inputs
    rw [he, hfl, hcc]
    omega

/-- C8: once every registered sink has flushed and every sent frame has
been received, the pull function returned by Pump reports `io.EOF`, leaves
the received count unchanged, and therefore every subsequent pull also
reports `io.EOF`; `eof` is a sentinel distinct from any data result. -/
theorem pull_eof_after_all_flushed (nc srate n : ℕ) (evts : List Event)
    (hwf : wfEvents (startState nc srate n) evts = true)
    (hne : (runEvents (startState nc srate n) evts).inputs ≠ [])
    (hall : ∀ inp ∈ (runEvents (startState nc srate n) evts).inputs, inp.flushed = true)
    (c : ℕ) (hc : (runEvents (startState nc srate n) evts).output.length ≤ c) (dst : Buf) :
    (pullFn (runEvents (startState nc srate n) evts) c dst).1 = PullResult.eof ∧
    (pullFn (runEvents (startState nc srate n) evts) c dst).2 = c := by
  have hInv := inv_run _ evts hwf (inv_start nc srate n)
  have hdone : (runEvents (startState nc srate n) evts).doneClosed = true := by
    rw [hInv.doneIff]
    simp only [Bool.and_eq_true, Bool.not_eq_true']
    refine ⟨?_, List.all_eq_true.mpr hall⟩
    rw [Bool.eq_false_iff]
    intro he
    exact hne (List.isEmpty_iff.mp he)
  unfold pullFn
  rw [List.getElem?_eq_none hc, hdone]
  exact ⟨rfl, rfl⟩

set_option maxHeartbeats 1000000 in
/-- C2: concrete scenario with 1 channel and block size 2: producer A
writes 4 blocks of 0.7, producer B writes 3 blocks of 0.5 interleaved
block-by-block, B flushes after its third block and A after its fourth;
the pulled output sample sequence is exactly
[0.6, 0.6, 0.6, 0.6, 0.6, 0.6, 0.7, 0.7]: pulls 0 through 3 return the
four mixed blocks in order and pull 4 reports end-of-stream. -/
theorem concrete_mix_output :
    (((runEvents (startState 1 44100 2) evtsC2).output.map
        (fun p => (Frame.copySum p.2 dst2).headD [])).flatten
      = [3/5, 3/5, 3/5, 3/5, 3/5, 3/5, 7/10, 7/10]) ∧
    (pullFn (runEvents (startState 1 44100 2) evtsC2) 0 dst2).1
      = PullResult.frameData [[3/5, 3/5]] ∧
    (pullFn (runEvents (startState 1 44100 2) evtsC2) 1 dst2).1
      = PullResult.frameData [[3/5, 3/5]] ∧
    (pullFn (runEvents (startState 1 44100 2) evtsC2) 2 dst2).1
      = PullResult.frameData [[3/5, 3/5]] ∧
    (pullFn (runEvents (startState 1 44100 2) evtsC2) 3 dst2).1
      = PullResult.frameData [[7/10, 7/10]] ∧
    (pullFn (runEvents (startState 1 44100 2) evtsC2) 4 dst2).1 = PullResult.eof := by
  refine ⟨?_, ?_, ?_, ?_, ?_, ?_⟩ <;>
    norm_num [evtsC2, runEvents, startState, newMixer, sinkReg, stepEvent, writeFn,
      flushFn, flushWalk, decExp, newFrame, Frame.add, Frame.copySum, Frame.isComplete,
      Buf.size, Buf.numChannels, Buf.sample, pullFn, dst2, bufA, bufB, List.foldl,
      List.range_succ, List.mapIdx_cons, List.mapIdx_nil, Int.toNat,
      List.getElem?_cons_zero, List.getElem?_cons_succ]

/-- C6: registering a second sink with a different channel count (or rate)
returns a nil error and mutates the session state — the code performs no
validation, contradicting the `Mixer.Sink` doc comment and the spec. -/
theorem sink_mismatch_no_error_mutates :
    ((sinkReg ((sinkReg (newMixer 1) 44100 1).1) 44100 2).2 = none) ∧
    (((sinkReg ((sinkReg (newMixer 1) 44100 1).1) 44100 2).1).inputs.length = 2) ∧
    ((((sinkReg ((sinkReg (newMixer 1) 44100 1).1) 44100 2).1).chain.headD
        (newFrame 0 0)).expected = 2) ∧
    (((sinkReg ((sinkReg (newMixer 1) 44100 1).1) 44100 2).1).activeInputs = 2) := by
  decide

/-- C9 counterexample: registering rates 44100 then 48000 leaves the mixer
holding (and Pump reporting) 48000, not the first registrant's 44100. -/
theorem sample_rate_not_first :
    (regFold (newMixer 1) [(44100, 1), (48000, 1)]).sampleRate = 48000 ∧
    (pumpProps (regFold (newMixer 1) [(44100, 1), (48000, 1)])).1 = 48000 ∧
    (48000 : ℕ) ≠ 44100 := by
  decide

/-- C9 amended: the session's sample rate always equals the rate declared
by the most recent registrant — each registration overwrites it — so it
equals the first registrant's rate only as long as every later registrant
declares the same rate. -/
theorem sample_rate_last_registrant (m : MixState) (regs : List (ℕ × ℕ)) (r : ℕ × ℕ) :
    (regFold m (regs ++ [r])).sampleRate = r.1 ∧
    (pumpProps (regFold m (regs ++ [r]))).1 = r.1 := by
  unfold regFold
  rw [List.foldl_append]
  exact ⟨rfl, rfl⟩

/-- C10: the write function returned by `Mixer.Sink` returns a nil error on
every state and every buffer — each return path of the Go closure ends in
`return nil`. -/
theorem write_returns_nil (m : MixState) (i : ℕ) (b : Buf) :
    (writeFn m i b).2 = none := by
  unfold writeFn
  split
  · rfl
  · split <;> rfl

theorem uniform_getElem_len {l : Buf} (h : Buf.uniform l) {i : ℕ} (hi : i < l.length) :
    l[i].length = Buf.size l := h _ (List.getElem_mem hi)

theorem sample_getElem (l : Buf) (i j : ℕ) :
    Buf.sample l i j = ((l[i]?.getD [])[j]?).getD 0 := by
  simp [Buf.sample, List.getD_eq_getElem?_getD]

theorem size_getElem (l : Buf) : Buf.size l = ((l[0]?).getD []).length := by
  cases l with
  | nil => rfl
  | cons ch t => simp [Buf.size]

theorem add_buffer_len (f : Frame) (b : Buf) :
    (f.add b).buffer.length = f.buffer.length := by
  simp only [Frame.add, List.length_mapIdx]
  by_cases hlt : (0:ℤ) < (Buf.size b : ℤ) - (Buf.size f.buffer : ℤ)
  · rw [if_pos hlt, List.length_map]
  · rw [if_neg hlt]

theorem add_channel (f : Frame) (b : Buf) (i : ℕ) (hi : i < f.buffer.length) :
    (f.add b).buffer[i]? = some (
      let ch1 := if Buf.size f.buffer < Buf.size b
        then f.buffer[i] ++ List.replicate (Buf.size b - Buf.size f.buffer) 0
        else f.buffer[i]
      if i < Buf.numChannels b then
        ch1.mapIdx (fun j v => if j < Buf.size b then v + Buf.sample b i j else v)
      else ch1) := by
  simp only [Frame.add]
  rw [List.getElem?_mapIdx]
  by_cases hlt : Buf.size f.buffer < Buf.size b
  · rw [if_pos (by omega : (0:ℤ) < (Buf.size b : ℤ) - (Buf.size f.buffer : ℤ))]
    rw [List.getElem?_map, List.getElem?_eq_getElem hi]
    simp only [Option.map_some']
    rw [if_pos hlt]
    rw [(by omega : ((Buf.size b : ℤ) - (Buf.size f.buffer : ℤ)).toNat
      = Buf.size b - Buf.size f.buffer)]
  · rw [if_neg (by omega : ¬((0:ℤ) < (Buf.size b : ℤ) - (Buf.size f.buffer : ℤ)))]
    rw [List.getElem?_eq_getElem hi]
    simp only [Option.map_some']
    rw [if_neg hlt]

theorem add_channel_len (f : Frame) (b : Buf) (hf : Buf.uniform f.buffer)
    (i : ℕ) (hi : i < f.buffer.length) (ch : List Sample)
    (hch : (f.add b).buffer[i]? = some ch) :
    ch.length = max (Buf.size f.buffer) (Buf.size b) := by
  rw [add_channel f b i hi] at hch
  injection hch with hch
  subst hch
  have hlen : f.buffer[i].length = Buf.size f.buffer := uniform_getElem_len hf hi
  by_cases hlt : Buf.size f.buffer < Buf.size b
  · simp only [hlt, if_pos]
    by_cases hib : i < Buf.numChannels b
    · rw [if_pos hib, List.length_mapIdx, List.length_append, hlen, List.length_replicate]
      omega
    · rw [if_neg hib, List.length_append, hlen, List.length_replicate]
      omega
  · simp only [hlt, if_neg, if_false]
    by_cases hib : i < Buf.numChannels b
    · rw [if_pos hib, List.length_mapIdx, hlen]
      omega
    · rw [if_neg hib, hlen]
      omega

theorem add_sample_eq (f : Frame) (b : Buf) (hf : Buf.uniform f.buffer)
    (hb : Buf.uniform b) (i j : ℕ) (hi : i < f.buffer.length)
    (hj : j < max (Buf.size f.buffer) (Buf.size b)) :
    Buf.sample (f.add b).buffer i j =
      Buf.sample f.buffer i j +
        (if i < Buf.numChannels b ∧ j < Buf.size b then Buf.sample b i j else 0) := by
  have hlen : f.buffer[i].length = Buf.size f.buffer := uniform_getElem_len hf hi
  have hfs : Buf.sample f.buffer i j = (f.buffer[i][j]?).getD 0 := by
    rw [sample_getElem, List.getElem?_eq_getElem hi]
    rfl
  have hext_get :
      ((if Buf.size f.buffer < Buf.size b
        then f.buffer[i] ++ List.replicate (Buf.size b - Buf.size f.buffer) 0
        else f.buffer[i])[j]?).getD 0 = Buf.sample f.buffer i j := by
    by_cases hlt : Buf.size f.buffer < Buf.size b
    · rw [if_pos hlt, List.getElem?_append]
      by_cases hjf : j < f.buffer[i].length
      · rw [if_pos hjf, hfs]
      · rw [if_neg hjf, List.getElem?_replicate, hlen]
        rw [if_pos (by omega : j - Buf.size f.buffer < Buf.size b - Buf.size f.buffer)]
        rw [hfs, List.getElem?_eq_none (by omega), Option.getD_none]
        rfl
    · rw [if_neg hlt, hfs]
  have hext_len :
      (if Buf.size f.buffer < Buf.size b
        then f.buffer[i] ++ List.replicate (Buf.size b - Buf.size f.buffer) 0
        else f.buffer[i]).length = max (Buf.size f.buffer) (Buf.size b) := by
    by_cases hlt : Buf.size f.buffer < Buf.size b
    · rw [if_pos hlt, List.length_append, hlen, List.length_replicate]
      omega
    · rw [if_neg hlt, hlen]
      omega
  rw [sample_getElem, add_channel f b i hi]
  simp only [Option.getD_some]
  by_cases hib : i < Buf.numChannels b
  · rw [if_pos hib, List.getElem?_mapIdx]
    obtain ⟨v, hv⟩ : ∃ v,
        (if Buf.size f.buffer < Buf.size b
          then f.buffer[i] ++ List.replicate (Buf.size b - Buf.size f.buffer) 0
          else f.buffer[i])[j]? = some v := by
      refine ⟨_, List.getElem?_eq_getElem ?_⟩
      omega
    rw [hv]
    rw [hv] at hext_get
    simp only [Option.getD_some] at hext_get
    simp only [Option.map_some', Option.getD_some]
    by_cases hjb : j < Buf.size b
    · rw [if_pos hjb, if_pos ⟨hib, hjb⟩, hext_get]
    · rw [if_neg hjb, if_neg (by tauto), hext_get]
      ring
  · rw [if_neg hib, hext_get, if_neg (by tauto), add_zero]

theorem copySum_len (f : Frame) (b : Buf) : (f.copySum b).length = b.length := by
  simp only [Frame.copySum, List.length_mapIdx]
  by_cases hlt : Buf.size f.buffer < Buf.size b
  · rw [if_pos hlt, List.length_mapIdx]
  · rw [if_neg hlt]

theorem copySum_b1_get (f : Frame) (b : Buf) (i : ℕ) :
    (if Buf.size f.buffer < Buf.size b then
        b.mapIdx (fun i ch =>
          if i < Buf.numChannels f.buffer then ch.take (Buf.size f.buffer) else ch)
      else b)[i]? =
    (b[i]?).map (fun ch =>
      if Buf.size f.buffer < Buf.size b ∧ i < Buf.numChannels f.buffer
        then ch.take (Buf.size f.buffer) else ch) := by
  by_cases hlt : Buf.size f.buffer < Buf.size b
  · rw [if_pos hlt, List.getElem?_mapIdx]
    cases hbi : b[i]? with
    | none => rfl
    | some ch =>
      simp only [Option.map_some']
      by_cases hic : i < Buf.numChannels f.buffer
      · rw [if_pos hic, if_pos ⟨hlt, hic⟩]
      · rw [if_neg hic, if_neg (by tauto)]
  · rw [if_neg hlt]
    cases hbi : b[i]? with
    | none => rfl
    | some ch =>
      simp only [Option.map_some']
      rw [if_neg (by tauto)]

theorem copySum_b1_size (f : Frame) (b : Buf) (hb : Buf.uniform b)
    (hch : Buf.numChannels b = Buf.numChannels f.buffer) :
    Buf.size (if Buf.size f.buffer < Buf.size b then
        b.mapIdx (fun i ch =>
          if i < Buf.numChannels f.buffer then ch.take (Buf.size f.buffer) else ch)
      else b) = min (Buf.size b) (Buf.size f.buffer) := by
  cases hbe : b with
  | nil =>
    subst hbe
    have hlt : ¬(Buf.size f.buffer < Buf.size ([] : Buf)) := by
      simp [Buf.size]
    rw [if_neg hlt]
    simp [Buf.size]
  | cons ch0 t =>
    rw [← hbe]
    have h0 : 0 < b.length := by rw [hbe]; simp
    rw [size_getElem, copySum_b1_get, List.getElem?_eq_getElem h0]
    simp only [Option.map_some', Option.getD_some]
    have hl0 : b[0].length = Buf.size b := uniform_getElem_len hb h0
    by_cases hlt : Buf.size f.buffer < Buf.size b
    · have hic : 0 < Buf.numChannels f.buffer := by
        simp only [Buf.numChannels] at hch ⊢
        omega
      rw [if_pos ⟨hlt, hic⟩, List.length_take, hl0]
      omega
    · rw [if_neg (by tauto), hl0]
      omega

theorem copySum_channel (f : Frame) (b : Buf) (i : ℕ) :
    (f.copySum b)[i]? =
      ((if Buf.size f.buffer < Buf.size b then
          b.mapIdx (fun i ch =>
            if i < Buf.numChannels f.buffer then ch.take (Buf.size f.buffer) else ch)
        else b)[i]?).map (fun ch =>
        ch.mapIdx (fun j v =>
          if j < Buf.size (if Buf.size f.buffer < Buf.size b then
              b.mapIdx (fun i ch =>
                if i < Buf.numChannels f.buffer then ch.take (Buf.size f.buffer) else ch)
            else b)
          then Buf.sample f.buffer i j / (f.summed : ℚ) else v)) := by
  simp only [Frame.copySum]
  rw [List.getElem?_mapIdx]

theorem copySum_b1_chlen (f : Frame) (b : Buf) (hb : Buf.uniform b)
    (i : ℕ) (hi : i < b.length) :
    (if Buf.size f.buffer < Buf.size b ∧ i < Buf.numChannels f.buffer
      then b[i].take (Buf.size f.buffer) else b[i]).length
      = if Buf.size f.buffer < Buf.size b ∧ i < Buf.numChannels f.buffer
        then min (Buf.size b) (Buf.size f.buffer) else Buf.size b := by
  have hl : b[i].length = Buf.size b := uniform_getElem_len hb hi
  by_cases hc : Buf.size f.buffer < Buf.size b ∧ i < Buf.numChannels f.buffer
  · rw [if_pos hc, if_pos hc, List.length_take, hl]
    omega
  · rw [if_neg hc, if_neg hc, hl]

theorem copySum_channel_len (f : Frame) (b : Buf) (hb : Buf.uniform b)
    (hch : Buf.numChannels b = Buf.numChannels f.buffer)
    (ch : List Sample) (hmem : ch ∈ f.copySum b) :
    ch.length = min (Buf.size b) (Buf.size f.buffer) := by
  rcases List.mem_iff_getElem?.mp hmem with ⟨i, hi⟩
  have hi' : i < b.length := by
    have := (List.getElem?_eq_some.mp hi).1
    rwa [copySum_len] at this
  rw [copySum_channel, copySum_b1_get, List.getElem?_eq_getElem hi'] at hi
  simp only [Option.map_some'] at hi
  injection hi with hi
  subst hi
  rw [List.length_mapIdx, copySum_b1_chlen f b hb i hi']
  have hl : b[i].length = Buf.size b := uniform_getElem_len hb hi'
  by_cases hlt : Buf.size f.buffer < Buf.size b
  · have hic : i < Buf.numChannels f.buffer := by
      simp only [Buf.numChannels] at hch ⊢
      omega
    rw [if_pos ⟨hlt, hic⟩]
  · rw [if_neg (by tauto)]
    omega

theorem copySum_sample (f : Frame) (b : Buf) (hb : Buf.uniform b)
    (hch : Buf.numChannels b = Buf.numChannels f.buffer) (i j : ℕ)
    (hi : i < b.length) (hj : j < min (Buf.size b) (Buf.size f.buffer)) :
    Buf.sample (f.copySum b) i j = Buf.sample f.buffer i j / (f.summed : ℚ) := by
  rw [sample_getElem, copySum_channel, copySum_b1_get, List.getElem?_eq_getElem hi]
  simp only [Option.map_some', Option.getD_some]
  rw [List.getElem?_mapIdx]
  have hlen := copySum_b1_chlen f b hb i hi
  obtain ⟨v, hv⟩ : ∃ v,
      (if Buf.size f.buffer < Buf.size b ∧ i < Buf.numChannels f.buffer
        then b[i].take (Buf.size f.buffer) else b[i])[j]? = some v := by
    refine ⟨_, List.getElem?_eq_getElem ?_⟩
    rw [hlen]
    by_cases hc : Buf.size f.buffer < Buf.size b ∧ i < Buf.numChannels f.buffer
    · rw [if_pos hc]; omega
    · rw [if_neg hc]; omega
  rw [hv]
  simp only [Option.map_some', Option.getD_some]
  rw [copySum_b1_size f b hb hch, if_pos (by omega : j < min (Buf.size b) (Buf.size f.buffer))]

/-- C3: `frame.add` never shortens the frame buffer: the channel count is
preserved; every channel ends at length `max (frame size) (incoming size)`
— a zero-filled extension to the incoming length when the incoming buffer
is longer; and the value at each position (i, j) becomes the previously
accumulated value plus the incoming sample at the same position when that
position lies within the incoming buffer, and is kept unchanged otherwise. -/
theorem add_monotone_lossless (f : Frame) (b : Buf)
    (hf : Buf.uniform f.buffer) (hb : Buf.uniform b) :
    (f.add b).buffer.length = f.buffer.length ∧
    (∀ ch ∈ (f.add b).buffer, ch.length = max (Buf.size f.buffer) (Buf.size b)) ∧
    (∀ i j, i < f.buffer.length → j < max (Buf.size f.buffer) (Buf.size b) →
      Buf.sample (f.add b).buffer i j =
        Buf.sample f.buffer i j +
          (if i < Buf.numChannels b ∧ j < Buf.size b then Buf.sample b i j else 0)) := by
  refine ⟨add_buffer_len f b, ?_, fun i j hi hj => add_sample_eq f b hf hb i j hi hj⟩
  intro ch hch
  rcases List.mem_iff_getElem?.mp hch with ⟨i, hi⟩
  have hi' : i < (f.add b).buffer.length := (List.getElem?_eq_some.mp hi).1
  rw [add_buffer_len] at hi'
  exact add_channel_len f b hf i hi' ch hi

/-- C4: for a frame with `summed = n > 0`, `copySum` writes, at every
channel and position of the destination within the frame buffer's size,
exactly the frame's accumulated sum at that position divided by n; the
destination keeps its channel count, and each destination channel is
shrunk to the frame buffer's size when the frame buffer is shorter (its
length becomes the minimum of the two sizes); `copySum` is pure in the
frame, whose accumulated buffer is therefore unchanged. -/
theorem copySum_divides (f : Frame) (b : Buf) (hn : 0 < f.summed)
    (hf : Buf.uniform f.buffer) (hb : Buf.uniform b)
    (hch : Buf.numChannels b = Buf.numChannels f.buffer) :
    (f.copySum b).length = b.length ∧
    (∀ ch ∈ f.copySum b, ch.length = min (Buf.size b) (Buf.size f.buffer)) ∧
    (∀ i j, i < b.length → j < min (Buf.size b) (Buf.size f.buffer) →
      Buf.sample (f.copySum b) i j = Buf.sample f.buffer i j / (f.summed : ℚ)) :=
  ⟨copySum_len f b, fun ch hm => copySum_channel_len f b hb hch ch hm,
    fun i j hi hj => copySum_sample f b hb hch i j hi hj⟩

/-- Witness for C1: the concrete scenario's trace is well-formed and its
output indices are duplicate-free. -/
theorem frame_pushed_exactly_once_witness :
    ((runEvents (startState 1 44100 2) evtsC2).output.map Prod.fst).Nodup :=
  (frame_pushed_exactly_once 1 44100 2 evtsC2 (by decide)).1

/-- Witness for C3 at a frame holding one 2-sample contribution and an
incoming 3-sample buffer. -/
theorem add_monotone_lossless_witness :
    ((Frame.mk [[1, 2]] 1 2).add [[10, 20, 30]]).buffer.length = 1 ∧
    Buf.sample ((Frame.mk [[1, 2]] 1 2).add [[10, 20, 30]]).buffer 0 2
      = Buf.sample [[1, 2]] 0 2 + Buf.sample [[10, 20, 30]] 0 2 := by
  have h := add_monotone_lossless (Frame.mk [[1, 2]] 1 2) [[10, 20, 30]]
    (by decide) (by decide)
  refine ⟨h.1, ?_⟩
  have h3 := h.2.2 0 2 (by decide) (by decide)
  rw [h3, if_pos (by decide)]

/-- Witness for C4 at a complete frame with two contributions and a longer
destination buffer. -/
theorem copySum_divides_witness :
    ((Frame.mk [[6, 8]] 2 2).copySum [[0, 0, 0]]).length = 1 ∧
    Buf.sample ((Frame.mk [[6, 8]] 2 2).copySum [[0, 0, 0]]) 0 1
      = Buf.sample [[6, 8]] 0 1 / ((2 : ℕ) : ℚ) := by
  have h := copySum_divides (Frame.mk [[6, 8]] 2 2) [[0, 0, 0]]
    (by decide) (by decide) (by decide) (by decide)
  exact ⟨h.1, h.2.2 0 1 (by decide) (by decide)⟩

/-- Witness for C5: the first frame of the concrete scenario's final chain
satisfies the invariant. -/
theorem frame_summed_le_expected_witness :
    (((runEvents (startState 1 44100 2) evtsC2).chain.headD (newFrame 0 0)).summed : ℤ)
      ≤ ((runEvents (startState 1 44100 2) evtsC2).chain.headD (newFrame 0 0)).expected := by
  apply frame_summed_le_expected 1 44100 2 evtsC2 (by decide)
  cases hc : (runEvents (startState 1 44100 2) evtsC2).chain with
  | nil => exact absurd hc (by decide)
  | cons a t => simp

/-- Witness for C7: the very first write of the two-producer session
creates a successor expecting both producers and awaiting none. -/
theorem successor_expects_unflushed_witness :
    (((stepEvent (runEvents (startState 1 44100 2) []) (Event.write 0 bufA)).chain[
        (runEvents (startState 1 44100 2) []).chain.length]?).map Frame.expected
      = some 2) ∧
    (((stepEvent (runEvents (startState 1 44100 2) []) (Event.write 0 bufA)).chain[
        (runEvents (startState 1 44100 2) []).chain.length]?).map Frame.summed
      = some 0) := by
  obtain ⟨g, hg, he, hs⟩ := successor_expects_unflushed 1 44100 2 [] 0 bufA ⟨0, false, 1⟩
    (by decide) (by decide) (by decide) (by decide)
  rw [hg]
  constructor
  · rw [Option.map_some', he]
    decide
  · rw [Option.map_some', hs]

/-- Witness for C8: in the concrete scenario both pulls after the last data
frame report end-of-stream. -/
theorem pull_eof_after_all_flushed_witness :
    (pullFn (runEvents (startState 1 44100 2) evtsC2) 4 dst2).1 = PullResult.eof ∧
    (pullFn (runEvents (startState 1 44100 2) evtsC2) 5 dst2).1 = PullResult.eof :=
  ⟨(pull_eof_after_all_flushed 1 44100 2 evtsC2 (by decide) (by decide)
      (by decide) 4 (by decide) dst2).1,
   (pull_eof_after_all_flushed 1 44100 2 evtsC2 (by decide) (by decide)
      (by decide) 5 (by decide) dst2).1⟩

end MixM
